import Mathlib

/-!
Verification of the text-analytics engine of `src/script.js`.

The JavaScript functions are shallowly embedded: strings are `String` /
`List Char`, IEEE-754 doubles are modelled as exact rationals (`ℚ`),
`null` as `Option`, and JS objects holding word frequencies as association
lists in JS property-enumeration order.  All definitions are executable.
-/

/-- JavaScript whitespace class `\s` (also the character set removed by
`String.prototype.trim`): space, tab, line feed, vertical tab, form feed,
carriage return, and the Unicode space characters. -/
def isJsWS (c : Char) : Bool :=
  c = ' ' || c = '\t' || c = '\n' || c = '\x0B' || c = '\x0C' || c = '\r' ||
  c = '\u00A0' || c = '\u1680' || (0x2000 ≤ c.toNat && c.toNat ≤ 0x200A) ||
  c = '\u2028' || c = '\u2029' || c = '\u202F' || c = '\u205F' ||
  c = '\u3000' || c = '\uFEFF'

/-- `text.trim()`: remove leading and trailing JavaScript whitespace. -/
def jsTrim (l : List Char) : List Char :=
  ((l.dropWhile isJsWS).reverse.dropWhile isJsWS).reverse

/-- Maximal runs of characters satisfying `p`, left to right.  This is the
shared shape of `String.prototype.split` on a one-or-more character class
(which, on input without boundary separators, returns exactly the maximal
non-separator runs) and of a global regex match such as `/\b\w+\b/g`
(which returns exactly the maximal `\w` runs). -/
def tokenizeBy (p : Char → Bool) : List Char → List (List Char)
  | [] => []
  | [c] => if p c then [[c]] else []
  | c :: d :: rest =>
    let ts := tokenizeBy p (d :: rest)
    if p c then
      if p d then (c :: ts.headD []) :: ts.tail else [c] :: ts
    else ts

/-- The regex word-character class `\w`, i.e. `[A-Za-z0-9_]`. -/
def isWordChar (c : Char) : Bool :=
  ('a' ≤ c && c ≤ 'z') || ('A' ≤ c && c ≤ 'Z') || ('0' ≤ c && c ≤ '9') || c = '_'

/-- `getWords` (script.js:223-226): for empty/whitespace-only text return `[]`;
otherwise lower-case the text and return all matches of `/\b\w+\b/g`, i.e.
the maximal runs of word characters, in order. -/
def getWords (t : String) : List String :=
  if jsTrim t.toList = [] then []
  else (tokenizeBy isWordChar (t.toList.map Char.toLower)).map List.asString

/-- `countWords` (script.js:108-114): 0 for empty/whitespace-only text,
otherwise the number of fragments of `text.trim().split(/\s+/)` that are
non-empty — on trimmed text these are exactly the maximal non-whitespace
runs. -/
def countWords (t : String) : Nat :=
  if jsTrim t.toList = [] then 0
  else (tokenizeBy (fun c => !isJsWS c) (jsTrim t.toList)).length

/-- Keys of a JS `Set` (or plain-object frequency table) in insertion order:
the first occurrence of each word, in order of first occurrence. -/
def firstSeenAux (seen : List String) : List String → List String
  | [] => []
  | w :: ws => if w ∈ seen then firstSeenAux seen ws else w :: firstSeenAux (w :: seen) ws

/-- First occurrences of the words, in order. -/
def firstSeen (ws : List String) : List String := firstSeenAux [] ws

/-- `countUniqueWords` (script.js:214-218): 0 for empty/whitespace-only text,
otherwise `new Set(words).size` where `words` are the lower-cased `\b\w+\b`
matches — i.e. the number of distinct tokens. -/
def countUniqueWords (t : String) : Nat :=
  if jsTrim t.toList = [] then 0
  else (firstSeen ((tokenizeBy isWordChar (t.toList.map Char.toLower)).map List.asString)).length

theorem firstSeenAux_length_le (ws : List String) :
    ∀ seen, (firstSeenAux seen ws).length ≤ ws.length := by
  induction ws with
  | nil => intro seen; simp [firstSeenAux]
  | cons w ws ih =>
    intro seen
    simp only [firstSeenAux]
    split
    · exact (ih seen).trans (Nat.le_succ _)
    · simpa using ih (w :: seen)

/-- Claim C1 (counterexample): on `"a-b"` the whitespace-based word count is 1
but there are two distinct `\w+` tokens (`a` and `b`), so
`countUniqueWords(text) ≤ countWords(text)` is false. -/
theorem countUniqueWords_gt_countWords_example :
    ¬ (countUniqueWords "a-b" ≤ countWords "a-b") := by decide

/-- Claim C1 (amended): the number of unique words is bounded by the number of
tokens returned by `getWords` (the whitespace-based `countWords` is not an
upper bound, since one whitespace-delimited word may contain several
word-character tokens). -/
theorem countUniqueWords_le_token_count (t : String) :
    countUniqueWords t ≤ (getWords t).length := by
  unfold countUniqueWords getWords
  split
  · simp
  · simpa [firstSeen] using
      firstSeenAux_length_le
        ((tokenizeBy isWordChar (t.toList.map Char.toLower)).map List.asString) []

/-- Sentence-terminator class `[.!?]`. -/
def isSentenceTerm (c : Char) : Bool := c = '.' || c = '!' || c = '?'

/-- `countSentences` (script.js:134-141): 0 for empty/whitespace-only text;
otherwise split the trimmed text on `/[.!?]+/` and count the fragments that
are non-empty after trimming — i.e. the maximal runs of non-terminator
characters that contain a non-whitespace character. -/
def countSentences (t : String) : Nat :=
  if jsTrim t.toList = [] then 0
  else ((tokenizeBy (fun c => !isSentenceTerm c) (jsTrim t.toList)).filter
        (fun s => !(jsTrim s).isEmpty)).length

/-- Index of the last `'\n'` in the list, if any. -/
def lastNewline : List Char → Option Nat
  | [] => none
  | c :: cs =>
    match lastNewline cs with
    | some k => some (k + 1)
    | none => if c = '\n' then some 0 else none

/-- Scanning loop of `split(/\n\s*\n/)`.  `acc` holds the current fragment in
reverse.  At a `'\n'` the regex engine greedily extends `\s*` through the
following whitespace run and backtracks to the last `'\n'` inside it; if such
a newline exists the separator match succeeds and the current fragment ends.
`fuel` bounds the recursion; `fuel = length + 1` always suffices because every
step consumes at least one character of the remaining input. -/
def splitParasGo : Nat → List Char → List Char → List (List Char)
  | _, acc, [] => [acc.reverse]
  | 0, acc, rest => [acc.reverse ++ rest]
  | fuel + 1, acc, c :: rest =>
    if c = '\n' then
      match lastNewline (rest.takeWhile isJsWS) with
      | some k => acc.reverse :: splitParasGo fuel [] (rest.drop (k + 1))
      | none => splitParasGo fuel (c :: acc) rest
    else splitParasGo fuel (c :: acc) rest

/-- `text.split(/\n\s*\n/)`: split on blank-line separators. -/
def splitParas (l : List Char) : List (List Char) :=
  splitParasGo (l.length + 1) [] l

/-- The fragments of the trimmed text split on blank-line separators. -/
def blankLineSegs (t : String) : List (List Char) := splitParas (jsTrim t.toList)

/-- Number of blank-line fragments that are non-empty after trimming. -/
def paraCount (t : String) : Nat :=
  ((blankLineSegs t).filter (fun s => !(jsTrim s).isEmpty)).length

/-- `countParagraphs` (script.js:146-153): 0 for empty/whitespace-only text;
otherwise split the trimmed text on `/\n\s*\n/`, count the fragments that are
non-empty after trimming, and return that count, or 1 when the count is 0. -/
def countParagraphs (t : String) : Nat :=
  if jsTrim t.toList = [] then 0
  else if 0 < paraCount t then paraCount t else 1

theorem dropWhile_head_false {p : Char → Bool} :
    ∀ (l : List Char) {c t}, l.dropWhile p = c :: t → p c = false := by
  intro l
  induction l with
  | nil => intro c t h; simp [List.dropWhile] at h
  | cons a l ih =>
    intro c t h
    rw [List.dropWhile_cons] at h
    split at h
    · exact ih h
    · cases h
      simpa using ‹¬ p a = true›

theorem jsTrim_eq_nil_iff {l : List Char} : jsTrim l = [] ↔ ∀ c ∈ l, isJsWS c := by
  unfold jsTrim
  rw [List.reverse_eq_nil_iff, List.dropWhile_eq_nil_iff]
  simp only [List.mem_reverse]
  constructor
  · intro h c hc
    have hc2 : c ∈ l.takeWhile isJsWS ++ l.dropWhile isJsWS := by
      rw [List.takeWhile_append_dropWhile]; exact hc
    rcases List.mem_append.mp hc2 with h1 | h2
    · exact List.mem_takeWhile_imp h1
    · exact h c h2
  · intro h x hx
    exact h x (((List.dropWhile_suffix isJsWS).sublist).subset hx)

theorem jsTrim_jsTrim_ne_nil {l : List Char} (h : jsTrim l ≠ []) :
    jsTrim (jsTrim l) ≠ [] := by
  intro hall
  rw [jsTrim_eq_nil_iff] at hall
  have hm : l.dropWhile isJsWS ≠ [] := by
    intro h0
    apply h
    simp [jsTrim, h0]
  obtain ⟨c₀, t₀, hm2⟩ := List.exists_cons_of_ne_nil hm
  have hc₀ : isJsWS c₀ = false := dropWhile_head_false _ hm2
  have hjt : jsTrim l = ((l.dropWhile isJsWS).reverse.dropWhile isJsWS).reverse := rfl
  have hd : (l.dropWhile isJsWS).reverse.dropWhile isJsWS ≠ [] := by
    intro h0
    apply h
    rw [hjt, h0]
    rfl
  have hsuffix : (l.dropWhile isJsWS).reverse.dropWhile isJsWS <:+
      (l.dropWhile isJsWS).reverse := List.dropWhile_suffix isJsWS
  obtain ⟨s, hs⟩ := hsuffix
  have hrev : l.dropWhile isJsWS =
      ((l.dropWhile isJsWS).reverse.dropWhile isJsWS).reverse ++ s.reverse := by
    have := congrArg List.reverse hs
    simpa [List.reverse_append] using this.symm
  have hdr : ((l.dropWhile isJsWS).reverse.dropWhile isJsWS).reverse ≠ [] := by
    simpa using hd
  obtain ⟨e, es, he⟩ :=
    List.exists_cons_of_ne_nil hdr
  have : c₀ :: t₀ = e :: (es ++ s.reverse) := by
    rw [← hm2, hrev, he]
    simp
  have hce : c₀ = e := by
    injection this
  have : c₀ ∈ jsTrim l := by
    rw [hjt, he, hce]
    exact List.mem_cons_self _ _
  have := hall c₀ this
  rw [hc₀] at this
  exact Bool.false_ne_true this

/-- Claim C7: `countParagraphs` returns 0 exactly for empty or whitespace-only
text; for non-empty text it counts the fragments of the blank-line split
(`/\n\s*\n/` on the trimmed text) that are non-empty after trimming, returning
1 when that count would be 0; in particular, when the split finds no blank-line
separator (it returns the trimmed text unchanged) the result is exactly 1. -/
theorem countParagraphs_spec (t : String) :
    (countParagraphs t = 0 ↔ jsTrim t.toList = []) ∧
    (jsTrim t.toList ≠ [] →
      countParagraphs t = if paraCount t = 0 then 1 else paraCount t) ∧
    (jsTrim t.toList ≠ [] → blankLineSegs t = [jsTrim t.toList] →
      countParagraphs t = 1) := by
  refine ⟨?_, ?_, ?_⟩
  · constructor
    · intro h0
      by_contra hne
      unfold countParagraphs at h0
      rw [if_neg hne] at h0
      split at h0 <;> omega
    · intro he
      unfold countParagraphs
      rw [if_pos he]
  · intro hne
    unfold countParagraphs
    rw [if_neg hne]
    rcases Nat.eq_zero_or_pos (paraCount t) with h | h
    · rw [if_neg (by omega), if_pos h]
    · rw [if_pos h, if_neg (by omega)]
  · intro hne hsingle
    have hseg : (jsTrim (jsTrim t.toList)).isEmpty = false := by
      have := jsTrim_jsTrim_ne_nil hne
      simpa [List.isEmpty_iff] using this
    have hp : paraCount t = 1 := by
      unfold paraCount
      rw [hsingle]
      simp only [List.filter_cons, List.filter_nil]
      rw [hseg]
      simp
    unfold countParagraphs
    rw [if_neg hne, if_pos (by omega)]
    exact hp

/-- Claim C7 (witness): the single-character text `"a"` is non-empty after
trimming, its blank-line split returns it unchanged, and it counts as exactly
one paragraph. -/
theorem countParagraphs_spec_witness :
    jsTrim "a".toList ≠ [] ∧ blankLineSegs "a" = [jsTrim "a".toList] ∧
      countParagraphs "a" = 1 :=
  ⟨by decide, by decide, (countParagraphs_spec "a").2.2 (by decide) (by decide)⟩

/-- The vowel class `[aeiouy]` of the syllable heuristic. -/
def isVowelY (c : Char) : Bool :=
  c = 'a' || c = 'e' || c = 'i' || c = 'o' || c = 'u' || c = 'y'

/-- The complement of the character class `[^laeiouy]` of the suffix regex:
a character is excluded when it is a vowel or the letter `l`. -/
def sylExcluded (c : Char) : Bool := c = 'l' || isVowelY c

/-- The single `replace` of `/(?:[^laeiouy]es|ed|[^laeiouy]e)$/` applied to the
reversed word.  The leftmost possible match position is length−3, where only
the three-character alternative `[^laeiouy]es` can end at the end of the word;
at length−2 the alternatives `ed` and `[^laeiouy]e` are tried in alternation
order.  Each branch removes exactly the matched characters. -/
def sylStripRev (r : List Char) : List Char :=
  match r with
  | a :: b :: c :: rest =>
    if a == 's' && b == 'e' && !sylExcluded c then rest
    else if a == 'd' && b == 'e' then c :: rest
    else if a == 'e' && !sylExcluded b then c :: rest
    else a :: b :: c :: rest
  | [a, b] =>
    if a == 'd' && b == 'e' then []
    else if a == 'e' && !sylExcluded b then []
    else [a, b]
  | r => r

/-- `word.replace(/^y/, '')`. -/
def stripLeadY : List Char → List Char
  | [] => []
  | c :: rest => if c = 'y' then rest else c :: rest

/-- Number of matches of the global regex `/[aeiouy]{1,2}/g`: scanning left to
right, each match greedily takes two adjacent vowels when possible, otherwise
one. -/
def vowelMatches : List Char → Nat
  | [] => 0
  | [c] => if isVowelY c then 1 else 0
  | c :: d :: rest =>
    if isVowelY c then
      if isVowelY d then 1 + vowelMatches rest else 1 + vowelMatches (d :: rest)
    else vowelMatches (d :: rest)

/-- `countSyllablesInWord` (script.js:261-268): lower-case; words of length at
most 3 count as one syllable; otherwise strip the suffix regex, strip a
leading `y`, and count `[aeiouy]{1,2}` matches, defaulting to 1 when there are
none. -/
def countSyllablesInWord (w : String) : Nat :=
  let l := w.toList.map Char.toLower
  if l.length ≤ 3 then 1
  else
    let l2 := stripLeadY (sylStripRev l.reverse).reverse
    let m := vowelMatches l2
    if m = 0 then 1 else m

/-- `countSyllables` (script.js:273-276): total syllables over all tokens. -/
def countSyllables (t : String) : Nat :=
  ((getWords t).map countSyllablesInWord).sum

/-- A consonant as claim C3's description reads: a letter that is not one of
the vowels `aeiouy`. -/
def claimConsonant (c : Char) : Bool :=
  (('a' ≤ c && c ≤ 'z') || ('A' ≤ c && c ≤ 'Z')) && !isVowelY c

/-- The suffix-stripping step exactly as claim C3 words it: strip a trailing
suffix matching consonant+"es", consonant+"ed", or consonant+silent "e"
(applied to the reversed word). -/
def claimStripRev (r : List Char) : List Char :=
  match r with
  | a :: b :: c :: rest =>
    if a == 's' && b == 'e' && claimConsonant c then rest
    else if a == 'd' && b == 'e' && claimConsonant c then rest
    else if a == 'e' && claimConsonant b then c :: rest
    else a :: b :: c :: rest
  | [a, b] => if a == 'e' && claimConsonant b then [] else [a, b]
  | r => r

/-- The whole heuristic as claim C3 describes it, differing from the code only
in the suffix-stripping step. -/
def claimSyllablesInWord (w : String) : Nat :=
  let l := w.toList.map Char.toLower
  if l.length ≤ 3 then 1
  else
    let l2 := stripLeadY (claimStripRev l.reverse).reverse
    let m := vowelMatches l2
    if m = 0 then 1 else m

/-- Claim C3 (counterexample): on `"tables"` the code strips nothing, because
the class `[^laeiouy]` excludes the letter `l` and the word does not end in
`ed` or a `[^laeiouy]e` pattern, giving 2 syllables; the claimed
"consonant + es" stripping rule would remove `les` and give 1. -/
theorem countSyllablesInWord_ne_claim_description :
    countSyllablesInWord "tables" = 2 ∧ claimSyllablesInWord "tables" = 1 := by
  decide

theorem tokenizeBy_cons_neg {p : Char → Bool} (c : Char) (cs : List Char)
    (h : p c = false) : tokenizeBy p (c :: cs) = tokenizeBy p cs := by
  cases cs with
  | nil => simp [tokenizeBy, h]
  | cons d rest => simp [tokenizeBy, h]

theorem tokenizeBy_cons_pos {p : Char → Bool} :
    ∀ (cs : List Char) (c : Char), p c = true →
      tokenizeBy p (c :: cs) =
        (c :: cs.takeWhile p) :: tokenizeBy p (cs.dropWhile p) := by
  intro cs
  induction cs with
  | nil => intro c h; simp [tokenizeBy, h]
  | cons d rest ih =>
    intro c h
    by_cases hd : p d
    · rw [show tokenizeBy p (c :: d :: rest) =
          (c :: (tokenizeBy p (d :: rest)).headD []) :: (tokenizeBy p (d :: rest)).tail from by
        simp [tokenizeBy, h, hd]]
      rw [ih d hd]
      simp [List.takeWhile_cons, List.dropWhile_cons, hd]
    · have hd' : p d = false := by simpa using hd
      simp [tokenizeBy, h, hd', List.takeWhile_cons, List.dropWhile_cons]

theorem vowelMatches_append_run :
    ∀ (n : Nat) (run rest : List Char), run.length = n →
      (∀ c ∈ run, isVowelY c = true) →
      (∀ d, rest.head? = some d → isVowelY d = false) →
      vowelMatches (run ++ rest) = (run.length + 1) / 2 + vowelMatches rest := by
  intro n
  induction n using Nat.strong_induction_on with
  | _ n ih =>
    intro run rest hlen hrun hrest
    rcases run with _ | ⟨c, _ | ⟨d, run'⟩⟩
    · simp
    · have hc := hrun c (by simp)
      rcases rest with _ | ⟨e, rest'⟩
      · simp [vowelMatches, hc]
      · have he := hrest e rfl
        simp [vowelMatches, hc, he]
    · have hc := hrun c (by simp)
      have hd := hrun d (by simp)
      have hrec := ih run'.length (by simp only [List.length_cons] at hlen; omega) run' rest rfl
        (fun x hx => hrun x (by simp [hx])) hrest
      simp only [List.cons_append, vowelMatches, hc, hd, if_true, List.append_eq]
      rw [hrec]
      simp only [List.length_cons]
      omega

theorem vowelMatches_eq_runs :
    ∀ (n : Nat) (l : List Char), l.length = n →
      vowelMatches l = ((tokenizeBy isVowelY l).map (fun g => (g.length + 1) / 2)).sum := by
  intro n
  induction n using Nat.strong_induction_on with
  | _ n ih =>
    intro l hlen
    rcases l with _ | ⟨c, cs⟩
    · simp [vowelMatches, tokenizeBy]
    · by_cases hc : isVowelY c = true
      · have hrun : ∀ x ∈ c :: cs.takeWhile isVowelY, isVowelY x = true := by
          intro x hx
          rcases List.mem_cons.mp hx with rfl | hx'
          · exact hc
          · exact List.mem_takeWhile_imp hx'
        have hrest : ∀ d, (cs.dropWhile isVowelY).head? = some d → isVowelY d = false := by
          intro d hd
          rcases hdrop : cs.dropWhile isVowelY with _ | ⟨e, t⟩
          · rw [hdrop] at hd; simp at hd
          · rw [hdrop] at hd
            simp at hd
            subst hd
            exact dropWhile_head_false cs hdrop
        have hsplit : c :: cs = (c :: cs.takeWhile isVowelY) ++ cs.dropWhile isVowelY := by
          simp
        have hlt : (cs.dropWhile isVowelY).length < n := by
          have h1 : (cs.dropWhile isVowelY).length ≤ cs.length :=
            ((List.dropWhile_suffix isVowelY).sublist).length_le
          simp only [List.length_cons] at hlen
          omega
        rw [tokenizeBy_cons_pos cs c hc, hsplit,
          vowelMatches_append_run (c :: cs.takeWhile isVowelY).length _ _ rfl hrun hrest]
        simp only [List.map_cons, List.sum_cons]
        rw [ih (cs.dropWhile isVowelY).length hlt _ rfl]
      · have hc' : isVowelY c = false := by simpa using hc
        rw [tokenizeBy_cons_neg c cs hc']
        have hvm : vowelMatches (c :: cs) = vowelMatches cs := by
          rcases cs with _ | ⟨d, rest⟩
          · simp [vowelMatches, hc']
          · simp [vowelMatches, hc']
        rw [hvm]
        simp only [List.length_cons] at hlen
        exact ih cs.length (by omega) cs rfl

theorem vowelMatches_runs (l : List Char) :
    vowelMatches l = ((tokenizeBy isVowelY l).map (fun g => (g.length + 1) / 2)).sum :=
  vowelMatches_eq_runs l.length l rfl

/-- The suffix-stripping step as amended for claim C3, phrased the way the
claim phrases it: strip a trailing `X`+"es" (`X` any character other than a
vowel or `l`), else a bare trailing "ed", else a trailing `X`+"e" (`X` as
before), the three-character pattern first — written positionally on the
reversed word. -/
def amendedStrip (l : List Char) : List Char :=
  if 3 ≤ l.reverse.length ∧ l.reverse.getD 0 ' ' = 's' ∧ l.reverse.getD 1 ' ' = 'e' ∧
      sylExcluded (l.reverse.getD 2 ' ') = false then
    (l.reverse.drop 3).reverse
  else if 2 ≤ l.reverse.length ∧ l.reverse.getD 0 ' ' = 'd' ∧ l.reverse.getD 1 ' ' = 'e' then
    (l.reverse.drop 2).reverse
  else if 2 ≤ l.reverse.length ∧ l.reverse.getD 0 ' ' = 'e' ∧
      sylExcluded (l.reverse.getD 1 ' ') = false then
    (l.reverse.drop 2).reverse
  else l

theorem amendedStrip_rev (r : List Char) :
    amendedStrip r.reverse = (sylStripRev r).reverse := by
  unfold amendedStrip
  simp only [List.reverse_reverse]
  rcases r with _ | ⟨a, _ | ⟨b, _ | ⟨c, rest⟩⟩⟩
  · simp [sylStripRev]
  · simp [sylStripRev]
  · by_cases h1 : a = 'd' <;> by_cases h2 : b = 'e' <;> by_cases h3 : a = 'e' <;>
      by_cases h4 : sylExcluded b = true <;>
      simp_all [sylStripRev]
  · have hlen3 : 3 ≤ (a :: b :: c :: rest).length := by
      simp only [List.length_cons]; omega
    have hlen2 : 2 ≤ (a :: b :: c :: rest).length := by
      simp only [List.length_cons]; omega
    by_cases h1 : a = 's' <;> by_cases h2 : b = 'e' <;> by_cases h3 : sylExcluded c = true <;>
      by_cases h4 : a = 'd' <;> by_cases h5 : a = 'e' <;> by_cases h6 : sylExcluded b = true <;>
      simp_all [sylStripRev]

theorem amendedStrip_eq (l : List Char) :
    amendedStrip l = (sylStripRev l.reverse).reverse := by
  have h := amendedStrip_rev l.reverse
  simpa using h

theorem stripLeadY_headD (l : List Char) :
    stripLeadY l = if l.headD ' ' = 'y' then l.tail else l := by
  cases l with
  | nil => simp [stripLeadY]
  | cons c rest => simp [stripLeadY]

/-- Claim C3 as amended: the same heuristic with the suffix rule stated as the
code implements it (`X`+"es" or `X`+silent "e" with `X` any character that is
neither a vowel nor `l`, or a bare "ed"; three-character pattern first), a
leading `y` stripped, and the vowel count expressed as the sum over maximal
vowel runs of ⌈run length / 2⌉, defaulting to 1 when there is no vowel. -/
def amendedSyllablesSpec (w : String) : Nat :=
  let l := w.toList.map Char.toLower
  if l.length ≤ 3 then 1
  else
    let l2 := if (amendedStrip l).headD ' ' = 'y' then (amendedStrip l).tail else amendedStrip l
    let m := ((tokenizeBy isVowelY l2).map (fun g => (g.length + 1) / 2)).sum
    if m = 0 then 1 else m

/-- Claim C3 (amended): `countSyllablesInWord` lower-cases its argument and
returns 1 for words of length at most 3; otherwise it strips a trailing
`X`+"es" or `X`+silent "e" where `X` is any character other than a vowel or
the letter `l`, or a bare trailing "ed" (the three-character pattern first),
strips a leading "y", and counts `[aeiouy]{1,2}` matches — ⌈n/2⌉ for each
maximal run of `n` vowels — returning 1 when there are none; in particular
`countSyllablesInWord "the" = 1` and `countSyllablesInWord "reading" = 2`. -/
theorem countSyllablesInWord_spec (w : String) :
    countSyllablesInWord w = amendedSyllablesSpec w ∧
    countSyllablesInWord "the" = 1 ∧ countSyllablesInWord "reading" = 2 := by
  refine ⟨?_, by decide, by decide⟩
  unfold countSyllablesInWord amendedSyllablesSpec
  have key : ∀ l : List Char,
      stripLeadY (sylStripRev l.reverse).reverse =
        (if (amendedStrip l).headD ' ' = 'y' then (amendedStrip l).tail
         else amendedStrip l) := by
    intro l
    rw [stripLeadY_headD, amendedStrip_eq]
  simp only [key, vowelMatches_runs]

/-- `Math.round`: round half toward positive infinity. -/
def jsRound (x : ℚ) : ℤ := ⌊x + 1/2⌋

/-- The raw Flesch reading-ease score
`206.835 - 1.015*(words/sentences) - 84.6*(syllables/words)` as an exact
rational (script.js:288-291). -/
def fleschScoreQ (t : String) : ℚ :=
  206835/1000 - 1015/1000 * ((countWords t : ℚ) / (countSentences t : ℚ))
    - 846/10 * ((countSyllables t : ℚ) / (countWords t : ℚ))

/-- `calculateFleschReadingEase` (script.js:281-293): `null` when the sentence
count or the word count is 0; otherwise the score with `Math.round` applied
and the result clamped by `Math.max(0, Math.min(100, _))`. -/
def calculateFleschReadingEase (t : String) : Option ℤ :=
  if countSentences t = 0 ∨ countWords t = 0 then none
  else some (max 0 (min 100 (jsRound (fleschScoreQ t))))

theorem jsRound_clamp (x : ℚ) :
    max 0 (min 100 (jsRound x)) = jsRound (max 0 (min 100 x)) := by
  unfold jsRound
  rcases le_total x 0 with h0 | h0
  · have hmax : max (0:ℚ) (min 100 x) = 0 := by
      rw [min_eq_right (le_trans h0 (by norm_num))]
      exact max_eq_left h0
    have hflo : ⌊x + 1/2⌋ ≤ 0 := by
      have h1 : ⌊x + 1/2⌋ ≤ ⌊(0:ℚ) + 1/2⌋ := Int.floor_le_floor (by linarith)
      have h2 : ⌊(0:ℚ) + 1/2⌋ = (0:ℤ) := by norm_num
      omega
    rw [min_eq_right (by omega : ⌊x + 1/2⌋ ≤ (100:ℤ)), max_eq_left hflo, hmax]
    norm_num
  · rcases le_total x 100 with h1 | h1
    · rw [min_eq_right h1, max_eq_right h0]
      have hlo : (0:ℤ) ≤ ⌊x + 1/2⌋ := by
        have ha : ⌊(0:ℚ) + 1/2⌋ ≤ ⌊x + 1/2⌋ := Int.floor_le_floor (by linarith)
        have hb : ⌊(0:ℚ) + 1/2⌋ = (0:ℤ) := by norm_num
        omega
      have hhi : ⌊x + 1/2⌋ ≤ (100:ℤ) := by
        have ha : ⌊x + 1/2⌋ ≤ ⌊(100:ℚ) + 1/2⌋ := Int.floor_le_floor (by linarith)
        have hb : ⌊(100:ℚ) + 1/2⌋ = (100:ℤ) := by norm_num
        omega
      rw [min_eq_right hhi, max_eq_right hlo]
    · have hge : (100:ℤ) ≤ ⌊x + 1/2⌋ := by
        have ha : ⌊(100:ℚ) + 1/2⌋ ≤ ⌊x + 1/2⌋ := Int.floor_le_floor (by linarith)
        have hb : ⌊(100:ℚ) + 1/2⌋ = (100:ℤ) := by norm_num
        omega
      rw [min_eq_left h1, max_eq_right (by norm_num : (0:ℚ) ≤ 100),
        min_eq_left hge, max_eq_right (by norm_num : (0:ℤ) ≤ 100)]
      norm_num

/-- Claim C5: `calculateFleschReadingEase` is `null` iff the sentence count or
the word count is 0; a non-null result equals the Flesch score clamped to
[0, 100] and rounded to the nearest integer (half up), and always lies in
[0, 100]. -/
theorem calculateFleschReadingEase_spec (t : String) :
    (calculateFleschReadingEase t = none ↔
      (countSentences t = 0 ∨ countWords t = 0)) ∧
    (∀ r : ℤ, calculateFleschReadingEase t = some r →
      r = jsRound (max 0 (min 100 (fleschScoreQ t))) ∧ 0 ≤ r ∧ r ≤ 100) := by
  constructor
  · unfold calculateFleschReadingEase
    split
    · simpa using ‹countSentences t = 0 ∨ countWords t = 0›
    · simpa using ‹¬ (countSentences t = 0 ∨ countWords t = 0)›
  · intro r hr
    unfold calculateFleschReadingEase at hr
    split at hr
    · exact absurd hr (by simp)
    · have hr2 : r = max 0 (min 100 (jsRound (fleschScoreQ t))) :=
        (Option.some.inj hr).symm
      refine ⟨?_, ?_, ?_⟩
      · rw [hr2, jsRound_clamp]
      · rw [hr2]; exact le_max_left _ _
      · rw [hr2]
        exact max_le (by norm_num) (min_le_left _ _)

/-- Claim C5 (witness): on `"Hi there."` there is 1 sentence, 2 words and 2
syllables, the raw score is 120.205, and the published result is the clamped
value 100, which lies in [0, 100]. -/
theorem calculateFleschReadingEase_spec_witness :
    calculateFleschReadingEase "Hi there." = some 100 ∧ (0:ℤ) ≤ 100 ∧ (100:ℤ) ≤ 100 := by
  have hs : countSentences "Hi there." = 1 := by decide
  have hw : countWords "Hi there." = 2 := by decide
  have hsyl : countSyllables "Hi there." = 2 := by decide
  have hval : calculateFleschReadingEase "Hi there." = some 100 := by
    unfold calculateFleschReadingEase fleschScoreQ jsRound
    rw [hs, hw, hsyl]
    norm_num
  exact ⟨hval, ((calculateFleschReadingEase_spec "Hi there.").2 100 hval).2⟩

/-- Shared shape of the three timing estimators (script.js:158-201): with
`minutes = wordCount / wpm`, return "< 1 min" below one minute, "1 min" on
[1, 2), and `ceil(minutes) + " min"` from two minutes up. -/
def estimateTimeQ (wpm : ℚ) (wordCount : Nat) : String :=
  if ((wordCount : ℚ) / wpm) < 1 then "< 1 min"
  else if ((wordCount : ℚ) / wpm) < 2 then "1 min"
  else toString ⌈(wordCount : ℚ) / wpm⌉ ++ " min"

/-- `calculateReadingTime` (script.js:158-169): 200 words per minute. -/
def calculateReadingTime (wordCount : Nat) : String := estimateTimeQ 200 wordCount

/-- `calculateSpeakingTime` (script.js:174-185): 150 words per minute. -/
def calculateSpeakingTime (wordCount : Nat) : String := estimateTimeQ 150 wordCount

/-- `calculateSkimmingTime` (script.js:190-201): 400 words per minute. -/
def calculateSkimmingTime (wordCount : Nat) : String := estimateTimeQ 400 wordCount

theorem estimateTimeQ_policy (wpm : ℚ) (wc : Nat) :
    ((wc : ℚ) / wpm < 1 → estimateTimeQ wpm wc = "< 1 min") ∧
    (1 ≤ (wc : ℚ) / wpm → (wc : ℚ) / wpm < 2 → estimateTimeQ wpm wc = "1 min") ∧
    (2 ≤ (wc : ℚ) / wpm →
      estimateTimeQ wpm wc = toString ⌈(wc : ℚ) / wpm⌉ ++ " min") := by
  unfold estimateTimeQ
  refine ⟨fun h => by rw [if_pos h],
    fun h1 h2 => by rw [if_neg (not_lt.mpr h1), if_pos h2],
    fun h => by rw [if_neg (by linarith), if_neg (by linarith)]⟩

/-- Claim C6: every preset (reading 200 wpm, speaking 150 wpm, skimming
400 wpm) follows the exact three-branch policy on `minutes = wordCount/wpm`:
minutes < 1 gives "< 1 min", 1 ≤ minutes < 2 gives "1 min", and minutes ≥ 2
gives `ceil(minutes)` followed by " min". -/
theorem estimateTime_spec (wc : Nat) :
    ((wc : ℚ) / 200 < 1 → calculateReadingTime wc = "< 1 min") ∧
    (1 ≤ (wc : ℚ) / 200 → (wc : ℚ) / 200 < 2 → calculateReadingTime wc = "1 min") ∧
    (2 ≤ (wc : ℚ) / 200 →
      calculateReadingTime wc = toString ⌈(wc : ℚ) / 200⌉ ++ " min") ∧
    ((wc : ℚ) / 150 < 1 → calculateSpeakingTime wc = "< 1 min") ∧
    (1 ≤ (wc : ℚ) / 150 → (wc : ℚ) / 150 < 2 → calculateSpeakingTime wc = "1 min") ∧
    (2 ≤ (wc : ℚ) / 150 →
      calculateSpeakingTime wc = toString ⌈(wc : ℚ) / 150⌉ ++ " min") ∧
    ((wc : ℚ) / 400 < 1 → calculateSkimmingTime wc = "< 1 min") ∧
    (1 ≤ (wc : ℚ) / 400 → (wc : ℚ) / 400 < 2 → calculateSkimmingTime wc = "1 min") ∧
    (2 ≤ (wc : ℚ) / 400 →
      calculateSkimmingTime wc = toString ⌈(wc : ℚ) / 400⌉ ++ " min") := by
  have h200 := estimateTimeQ_policy 200 wc
  have h150 := estimateTimeQ_policy 150 wc
  have h400 := estimateTimeQ_policy 400 wc
  exact ⟨h200.1, h200.2.1, h200.2.2, h150.1, h150.2.1, h150.2.2,
    h400.1, h400.2.1, h400.2.2⟩

/-- Claim C6 (witness): concrete values hitting all three branches of each
preset; in particular the claim's examples 150, 250 and 500 words at
200 wpm. -/
theorem estimateTime_spec_witness :
    calculateReadingTime 150 = "< 1 min" ∧ calculateReadingTime 250 = "1 min" ∧
    calculateReadingTime 500 = "3 min" ∧
    calculateSpeakingTime 100 = "< 1 min" ∧ calculateSpeakingTime 200 = "1 min" ∧
    calculateSpeakingTime 400 = "3 min" ∧
    calculateSkimmingTime 300 = "< 1 min" ∧ calculateSkimmingTime 500 = "1 min" ∧
    calculateSkimmingTime 900 = "3 min" := by
  refine ⟨(estimateTime_spec 150).1 (by norm_num),
    (estimateTime_spec 250).2.1 (by norm_num) (by norm_num), ?_,
    (estimateTime_spec 100).2.2.2.1 (by norm_num),
    (estimateTime_spec 200).2.2.2.2.1 (by norm_num) (by norm_num), ?_,
    (estimateTime_spec 300).2.2.2.2.2.2.1 (by norm_num),
    (estimateTime_spec 500).2.2.2.2.2.2.2.1 (by norm_num) (by norm_num), ?_⟩
  · rw [(estimateTime_spec 500).2.2.1 (by norm_num),
      show ⌈((500 : ℕ) : ℚ) / 200⌉ = 3 from by rw [Int.ceil_eq_iff]; norm_num]
    decide
  · rw [(estimateTime_spec 400).2.2.2.2.2.1 (by norm_num),
      show ⌈((400 : ℕ) : ℚ) / 150⌉ = 3 from by rw [Int.ceil_eq_iff]; norm_num]
    decide
  · rw [(estimateTime_spec 900).2.2.2.2.2.2.2.2 (by norm_num),
      show ⌈((900 : ℕ) : ℚ) / 400⌉ = 3 from by rw [Int.ceil_eq_iff]; norm_num]
    decide

/-- Result record of `analyzeSentiment`. -/
structure Sentiment where
  score : ℚ
  label : String
deriving DecidableEq, Repr

/-- The fixed positive word list (script.js:336). -/
def positiveWords : List String :=
  ["good", "great", "excellent", "amazing", "wonderful", "fantastic", "love",
   "happy", "joy", "pleased", "delighted", "perfect", "best", "awesome",
   "brilliant", "outstanding", "superb", "marvelous", "terrific", "fabulous"]

/-- The fixed negative word list (script.js:337). -/
def negativeWords : List String :=
  ["bad", "terrible", "awful", "horrible", "hate", "sad", "angry",
   "disappointed", "worst", "poor", "fail", "failure", "wrong", "error",
   "problem", "issue", "difficult", "hard", "tough", "struggle"]

/-- `analyzeSentiment` (script.js:333-356): `{score: 0, label: "-"}` for
empty/whitespace-only text; otherwise count tokens on the positive and
negative lists with one `forEach` loop, return `{0, "Neutral"}` when both
counts are 0, else `score = (pos-neg)/(pos+neg)*100` labelled "Positive"
above 20, "Negative" below −20, "Neutral" otherwise. -/
def analyzeSentiment (t : String) : Sentiment :=
  if jsTrim t.toList = [] then ⟨0, "-"⟩
  else
    let counts := (getWords t).foldl
      (fun (pn : Nat × Nat) w =>
        (if positiveWords.contains w then pn.1 + 1 else pn.1,
         if negativeWords.contains w then pn.2 + 1 else pn.2)) (0, 0)
    let total := counts.1 + counts.2
    if total = 0 then ⟨0, "Neutral"⟩
    else
      let score : ℚ := ((counts.1 : ℚ) - (counts.2 : ℚ)) / (total : ℚ) * 100
      if score > 20 then ⟨score, "Positive"⟩
      else if score < -20 then ⟨score, "Negative"⟩
      else ⟨score, "Neutral"⟩

/-- `analyzeSentiment` as claim C8 words it, with the two counters expressed
directly as counts over the token list. -/
def sentimentSpec (t : String) : Sentiment :=
  if jsTrim t.toList = [] then ⟨0, "-"⟩
  else
    let pos := (getWords t).countP (fun w => positiveWords.contains w)
    let neg := (getWords t).countP (fun w => negativeWords.contains w)
    if pos + neg = 0 then ⟨0, "Neutral"⟩
    else
      let score : ℚ := ((pos : ℚ) - (neg : ℚ)) / ((pos : ℚ) + (neg : ℚ)) * 100
      if score > 20 then ⟨score, "Positive"⟩
      else if score < -20 then ⟨score, "Negative"⟩
      else ⟨score, "Neutral"⟩

theorem sentiment_foldl (ws : List String) :
    ∀ p n : Nat,
      ws.foldl (fun (pn : Nat × Nat) w =>
        (if positiveWords.contains w then pn.1 + 1 else pn.1,
         if negativeWords.contains w then pn.2 + 1 else pn.2)) (p, n) =
      (p + ws.countP (fun w => positiveWords.contains w),
       n + ws.countP (fun w => negativeWords.contains w)) := by
  induction ws with
  | nil => intro p n; simp
  | cons w ws ih =>
    intro p n
    simp only [List.foldl_cons, List.countP_cons, ih]
    by_cases h1 : w ∈ positiveWords <;> by_cases h2 : w ∈ negativeWords <;>
      simp [h1, h2] <;> omega

/-- Claim C8: `analyzeSentiment` returns `{score: 0, label: "-"}` exactly on
empty/whitespace-only text; otherwise, with `pos` and `neg` the numbers of
tokens on the fixed positive and negative lists, it returns `{0, "Neutral"}`
when `pos+neg = 0`, and otherwise `score = (pos-neg)/(pos+neg)*100` with
label "Positive" when score > 20, "Negative" when score < -20, and "Neutral"
otherwise — i.e. it coincides with the claim's description `sentimentSpec`. -/
theorem analyzeSentiment_spec (t : String) :
    analyzeSentiment t = sentimentSpec t := by
  unfold analyzeSentiment sentimentSpec
  split
  · rfl
  · rw [sentiment_foldl (getWords t) 0 0]
    simp only [Nat.zero_add]
    have hcast : (((getWords t).countP (fun w => positiveWords.contains w) +
        (getWords t).countP (fun w => negativeWords.contains w) : ℕ) : ℚ) =
        (((getWords t).countP (fun w => positiveWords.contains w) : ℕ) : ℚ) +
        (((getWords t).countP (fun w => negativeWords.contains w) : ℕ) : ℚ) := by
      push_cast
      ring
    rw [hcast]

/-- Claim C10: the sentiment score always lies in the closed interval
[-100, 100]: it is 0 in the degenerate branches and otherwise
`(pos-neg)/(pos+neg)*100` with `|pos-neg| ≤ pos+neg`. -/
theorem analyzeSentiment_score_bounds (t : String) :
    -100 ≤ (analyzeSentiment t).score ∧ (analyzeSentiment t).score ≤ 100 := by
  unfold analyzeSentiment
  split
  · exact ⟨by norm_num, by norm_num⟩
  · rw [sentiment_foldl (getWords t) 0 0]
    simp only [Nat.zero_add]
    split
    · exact ⟨by norm_num, by norm_num⟩
    · have htotpos : 0 < (getWords t).countP (fun w => positiveWords.contains w) +
          (getWords t).countP (fun w => negativeWords.contains w) :=
        Nat.pos_of_ne_zero ‹¬ _ = 0›
      have htot : (0:ℚ) < (((getWords t).countP (fun w => positiveWords.contains w) +
          (getWords t).countP (fun w => negativeWords.contains w) : ℕ) : ℚ) := by
        exact_mod_cast htotpos
      have hcp : (0:ℚ) ≤ (((getWords t).countP (fun w => positiveWords.contains w) : ℕ) : ℚ) :=
        Nat.cast_nonneg _
      have hcn : (0:ℚ) ≤ (((getWords t).countP (fun w => negativeWords.contains w) : ℕ) : ℚ) :=
        Nat.cast_nonneg _
      have hb1 : -100 ≤ ((((getWords t).countP (fun w => positiveWords.contains w) : ℕ) : ℚ) -
          (((getWords t).countP (fun w => negativeWords.contains w) : ℕ) : ℚ)) /
          (((getWords t).countP (fun w => positiveWords.contains w) +
            (getWords t).countP (fun w => negativeWords.contains w) : ℕ) : ℚ) * 100 := by
        rw [div_mul_eq_mul_div, le_div_iff₀ htot]
        push_cast
        linarith
      have hb2 : ((((getWords t).countP (fun w => positiveWords.contains w) : ℕ) : ℚ) -
          (((getWords t).countP (fun w => negativeWords.contains w) : ℕ) : ℚ)) /
          (((getWords t).countP (fun w => positiveWords.contains w) +
            (getWords t).countP (fun w => negativeWords.contains w) : ℕ) : ℚ) * 100 ≤ 100 := by
        rw [div_mul_eq_mul_div, div_le_iff₀ htot]
        push_cast
        linarith
      split_ifs <;> exact ⟨hb1, hb2⟩

/-- The fixed 20-word common-English list (script.js:316). -/
def commonEnglishWords : List String :=
  ["the", "be", "to", "of", "and", "a", "in", "that", "have", "i", "it",
   "for", "not", "on", "with", "he", "as", "you", "do", "at"]

/-- `detectLanguage` (script.js:312-328): "-" for empty/whitespace-only text;
otherwise take the first 50 tokens, count matches against the common-English
list and compare `matches / min(tokenCount, 50)` with 0.2; above the
threshold "English", otherwise "English (likely)".  When there are no tokens
the JS division is `0/0 = NaN` and `NaN > 0.2` is `false`; this is modelled
by the explicit zero-denominator test, under which the "English" branch is
not taken. -/
def detectLanguage (t : String) : String :=
  if jsTrim t.toList = [] then "-"
  else
    let words := (getWords t).take 50
    let englishMatches := (words.filter (fun w => commonEnglishWords.contains w)).length
    let denom := min words.length 50
    if denom ≠ 0 ∧ ((englishMatches : ℚ) / (denom : ℚ)) > 1/5 then "English"
    else "English (likely)"

/-- Claim C9: on text that is non-empty after trimming but has no word tokens
(for example punctuation-only input), `detectLanguage` does not fail on the
zero-token division — the NaN comparison is false, the "English" branch is
not taken — and it returns "English (likely)". -/
theorem detectLanguage_no_tokens (t : String) (h1 : jsTrim t.toList ≠ [])
    (h2 : getWords t = []) : detectLanguage t = "English (likely)" := by
  unfold detectLanguage
  rw [if_neg h1]
  simp [h2]

/-- Claim C9 (witness): `"!!!"` is non-empty after trimming, has no word
tokens, and is classified "English (likely)". -/
theorem detectLanguage_no_tokens_witness :
    jsTrim "!!!".toList ≠ [] ∧ getWords "!!!" = [] ∧
      detectLanguage "!!!" = "English (likely)" :=
  ⟨by decide, by decide, detectLanguage_no_tokens "!!!" (by decide) (by decide)⟩

theorem char_toNat_ofNat {n : Nat} (h : n.isValidChar) : (Char.ofNat n).toNat = n := by
  rw [Char.ofNat, dif_pos h]
  rfl

theorem toLower_not_upper (c : Char) :
    ¬ (65 ≤ (Char.toLower c).toNat ∧ (Char.toLower c).toNat ≤ 90) := by
  unfold Char.toLower
  dsimp only
  split
  · rename_i h
    have hv : (c.toNat + 32).isValidChar := Or.inl (by omega)
    rw [char_toNat_ofNat hv]
    omega
  · rename_i h
    exact fun hc => h ⟨hc.1, hc.2⟩

theorem toLower_eq_self_of_not_upper {c : Char}
    (h : ¬ (65 ≤ c.toNat ∧ c.toNat ≤ 90)) : Char.toLower c = c := by
  unfold Char.toLower
  rw [if_neg (fun hc => h ⟨hc.1, hc.2⟩)]

theorem toLower_idem (c₀ : Char) :
    Char.toLower (Char.toLower c₀) = Char.toLower c₀ :=
  toLower_eq_self_of_not_upper (toLower_not_upper c₀)

theorem mem_map_toLower_fixed {c : Char} {l : List Char}
    (h : c ∈ l.map Char.toLower) : Char.toLower c = c := by
  obtain ⟨c₀, _, rfl⟩ := List.mem_map.mp h
  exact toLower_idem c₀

theorem tokenizeBy_chars {p : Char → Bool} :
    ∀ (n : Nat) (l : List Char), l.length = n →
      ∀ g ∈ tokenizeBy p l, ∀ c ∈ g, c ∈ l := by
  intro n
  induction n using Nat.strong_induction_on with
  | _ n ih =>
    intro l hlen g hg c hc
    rcases l with _ | ⟨a, cs⟩
    · simp [tokenizeBy] at hg
    · by_cases ha : p a = true
      · rw [tokenizeBy_cons_pos cs a ha] at hg
        rcases List.mem_cons.mp hg with rfl | hg'
        · rcases List.mem_cons.mp hc with rfl | hc'
          · exact List.mem_cons_self _ _
          · exact List.mem_cons_of_mem _ ((List.takeWhile_sublist p).subset hc')
        · have hlt : (cs.dropWhile p).length < n := by
            have h1 : (cs.dropWhile p).length ≤ cs.length :=
              ((List.dropWhile_suffix p).sublist).length_le
            simp only [List.length_cons] at hlen
            omega
          have hmem := ih _ hlt (cs.dropWhile p) rfl g hg' c hc
          exact List.mem_cons_of_mem _ (((List.dropWhile_suffix p).sublist).subset hmem)
      · have ha' : p a = false := by simpa using ha
        rw [tokenizeBy_cons_neg a cs ha'] at hg
        have hlt : cs.length < n := by simp only [List.length_cons] at hlen; omega
        exact List.mem_cons_of_mem _ (ih _ hlt cs rfl g hg c hc)

theorem getWords_chars_lower (t : String) :
    ∀ w ∈ getWords t, ∀ c ∈ w.toList, Char.toLower c = c := by
  intro w hw c hc
  unfold getWords at hw
  split at hw
  · simp at hw
  · obtain ⟨g, hg, rfl⟩ := List.mem_map.mp hw
    have hc' : c ∈ g := hc
    have hmem := tokenizeBy_chars _ _ rfl g hg c hc'
    exact mem_map_toLower_fixed hmem

/-- Result record of `findLongestAndShortestWords`. -/
structure LongShort where
  longest : String
  shortest : String
deriving DecidableEq, Repr

/-- `findLongestAndShortestWords` (script.js:361-370): `{"-", "-"}` when there
are no tokens; otherwise the first element of a sort of the (lower-cased)
tokens by descending length, and the first element of a sort by ascending
length.  JavaScript `sort` with a consistent comparator is a stable sort,
modelled by insertion sort. -/
def findLongestAndShortestWords (t : String) : LongShort :=
  if getWords t = [] then ⟨"-", "-"⟩
  else
    ⟨(List.insertionSort (fun a b : String => b.length ≤ a.length) (getWords t)).headD "-",
     (List.insertionSort (fun a b : String => a.length ≤ b.length) (getWords t)).headD "-"⟩

/-- Claim C4 (counterexample): on `"Hello hi"` the longest word is reported as
`"hello"`, not as the original-case `"Hello"`: the tokens reaching the
longest/shortest selection come from `getWords`, which lower-cases the text,
so the original character case is not preserved. -/
theorem findLongestAndShortestWords_lowercases :
    findLongestAndShortestWords "Hello hi" = ⟨"hello", "hi"⟩ ∧
      ("hello" : String) ≠ "Hello" := by
  exact ⟨by decide, by decide⟩

theorem insertionSort_headD_spec (r : String → String → Prop) [DecidableRel r]
    [IsTotal String r] [IsTrans String r] (ws : List String) (h : ws ≠ [])
    (hrefl : ∀ a, r a a) :
    (List.insertionSort r ws).headD "-" ∈ ws ∧
    ∀ w ∈ ws, r ((List.insertionSort r ws).headD "-") w := by
  rcases hs : List.insertionSort r ws with _ | ⟨a, tl⟩
  · exfalso
    have hperm := List.perm_insertionSort r ws
    rw [hs] at hperm
    exact h hperm.nil_eq.symm
  · have hperm := List.perm_insertionSort r ws
    rw [hs] at hperm
    have hsorted := List.sorted_insertionSort r ws
    rw [hs] at hsorted
    simp only [List.headD_cons]
    refine ⟨hperm.subset (List.mem_cons_self a tl), ?_⟩
    intro w hw
    rcases List.mem_cons.mp (hperm.symm.subset hw) with rfl | hw'
    · exact hrefl _
    · exact List.rel_of_pairwise_cons hsorted hw'

/-- Claim C4 (amended): for every text with at least one token,
`findLongestAndShortestWords` returns a longest and a shortest token of
`getWords` — of maximal resp. minimal length among all tokens — but in
lower-cased form (tokens come from `getWords`, which case-folds); the
original character case of the input is not preserved. -/
theorem findLongestAndShortestWords_spec (t : String) (h : getWords t ≠ []) :
    (findLongestAndShortestWords t).longest ∈ getWords t ∧
    (findLongestAndShortestWords t).shortest ∈ getWords t ∧
    (∀ w ∈ getWords t, w.length ≤ (findLongestAndShortestWords t).longest.length) ∧
    (∀ w ∈ getWords t, (findLongestAndShortestWords t).shortest.length ≤ w.length) ∧
    (∀ c ∈ (findLongestAndShortestWords t).longest.toList, Char.toLower c = c) ∧
    (∀ c ∈ (findLongestAndShortestWords t).shortest.toList, Char.toLower c = c) := by
  haveI : IsTotal String (fun a b : String => b.length ≤ a.length) :=
    ⟨fun a b => le_total b.length a.length⟩
  haveI : IsTrans String (fun a b : String => b.length ≤ a.length) :=
    ⟨fun _ _ _ h1 h2 => le_trans h2 h1⟩
  haveI : IsTotal String (fun a b : String => a.length ≤ b.length) :=
    ⟨fun a b => le_total a.length b.length⟩
  haveI : IsTrans String (fun a b : String => a.length ≤ b.length) :=
    ⟨fun _ _ _ h1 h2 => le_trans h1 h2⟩
  have hdesc := insertionSort_headD_spec (fun a b : String => b.length ≤ a.length)
    (getWords t) h (fun a => le_refl _)
  have hasc := insertionSort_headD_spec (fun a b : String => a.length ≤ b.length)
    (getWords t) h (fun a => le_refl _)
  have hval : findLongestAndShortestWords t =
      ⟨(List.insertionSort (fun a b : String => b.length ≤ a.length) (getWords t)).headD "-",
       (List.insertionSort (fun a b : String => a.length ≤ b.length) (getWords t)).headD "-"⟩ := by
    unfold findLongestAndShortestWords
    rw [if_neg h]
  rw [hval]
  exact ⟨hdesc.1, hasc.1, hdesc.2, hasc.2,
    getWords_chars_lower t _ hdesc.1, getWords_chars_lower t _ hasc.1⟩

/-- Claim C4 (amended, witness): on `"Hello hi"` the reported longest word
`"hello"` and shortest word `"hi"` are tokens of maximal resp. minimal
length, in lower-cased form. -/
theorem findLongestAndShortestWords_spec_witness :
    getWords "Hello hi" ≠ [] ∧
    ((findLongestAndShortestWords "Hello hi").longest ∈ getWords "Hello hi" ∧
     (findLongestAndShortestWords "Hello hi").shortest ∈ getWords "Hello hi" ∧
     (∀ w ∈ getWords "Hello hi",
        w.length ≤ (findLongestAndShortestWords "Hello hi").longest.length) ∧
     (∀ w ∈ getWords "Hello hi",
        (findLongestAndShortestWords "Hello hi").shortest.length ≤ w.length) ∧
     (∀ c ∈ (findLongestAndShortestWords "Hello hi").longest.toList,
        Char.toLower c = c) ∧
     (∀ c ∈ (findLongestAndShortestWords "Hello hi").shortest.toList,
        Char.toLower c = c)) :=
  ⟨by decide, findLongestAndShortestWords_spec "Hello hi" (by decide)⟩

/-- Numeric value of a digit string. -/
def digitsVal (s : String) : Nat :=
  s.toList.foldl (fun n c => 10 * n + (c.toNat - 48)) 0

/-- Whether a JS property key is an array index: the canonical decimal string
of an integer below 2^32 − 1.  `Object.entries` enumerates such keys first,
in ascending numeric order. -/
def isArrayIndexKey (s : String) : Bool :=
  !s.toList.isEmpty && s.toList.all Char.isDigit &&
  (s == "0" || s.toList.headD '0' != '0') && decide (digitsVal s < 4294967295)

/-- `Object.entries` key order of a plain JS object: array-index keys first in
ascending numeric order, then the remaining string keys in insertion order. -/
def jsKeyOrder (keys : List String) : List String :=
  List.insertionSort (fun a b => digitsVal a ≤ digitsVal b)
    (keys.filter (fun k => isArrayIndexKey k)) ++
  keys.filter (fun k => !isArrayIndexKey k)


/-- A value stored in (or read from) the plain-object frequency table: a
number, or a string produced by JS coercion when a count collided with an
inherited `Object.prototype` member. -/
inductive JsVal where
  | num : Nat → JsVal
  | str : String → JsVal
deriving DecidableEq, Repr

/-- Source text of a native function, as `Function.prototype.toString`
renders it (V8's formatting; the exact text is implementation-defined and no
theorem depends on it). -/
def nativeFunStr (name : String) : String :=
  "function " ++ name ++ "() \x7b [native code] \x7d"

/-- Own method names of `Object.prototype` other than `constructor`; their
inherited values are native functions named after the key. -/
def objectProtoMethodNames : List String :=
  ["hasOwnProperty", "isPrototypeOf", "propertyIsEnumerable", "toLocaleString",
   "toString", "valueOf",
   "__defineGetter__", "__defineSetter__", "__lookupGetter__", "__lookupSetter__"]

/-- What `frequency[word]` yields through the prototype chain when `word` is
not an own key, already in string-coerced form: `constructor` is the `Object`
function, the method names are native functions named after the key, and the
`__proto__` getter returns `Object.prototype` itself, which coerces to
"[object Object]"; every other key misses (`undefined`). -/
def protoLookupStr (w : String) : Option String :=
  if w = "constructor" then some (nativeFunStr "Object")
  else if objectProtoMethodNames.contains w then some (nativeFunStr w)
  else if w = "__proto__" then some "[object Object]"
  else none

/-- Whether a word collides with an `Object.prototype` property name. -/
def isObjectProtoName (w : String) : Bool := (protoLookupStr w).isSome

/-- JS `(v || 0) + 1`: a missing value (`undefined`, falsy) gives 1, as do a
numeric 0 and the empty string (both falsy; unreachable here); a truthy
number increments; a truthy string-coerced value concatenates the digit 1. -/
def jsIncr : Option JsVal → JsVal
  | none => .num 1
  | some (.num n) => if n = 0 then .num 1 else .num (n + 1)
  | some (.str s) => if s = "" then .num 1 else .str (s ++ "1")

/-- Assignment `tbl[w] = v` on the own properties: update in place when the
key exists (re-assignment does not change property order), otherwise append
the new key at the end of the insertion order. -/
def updateOwn : List (String × JsVal) → String → JsVal → List (String × JsVal)
  | [], w, v => [(w, v)]
  | e :: tl, w, v => if e.1 = w then (e.1, v) :: tl else e :: updateOwn tl w v

/-- One `frequency[word] = (frequency[word] || 0) + 1` step (script.js:380-382)
on the own-property table of the plain object `{}`.  The read falls through
to `Object.prototype` on a miss; the write creates or updates an own
property — except for `"__proto__"`, whose inherited accessor ignores a
non-object value, so no own key ever appears for it. -/
def freqStep (tbl : List (String × JsVal)) (w : String) : List (String × JsVal) :=
  let own := tbl.find? (fun e => e.1 == w)
  let v := jsIncr (match own with
    | some e => some e.2
    | none => (protoLookupStr w).map JsVal.str)
  if w == "__proto__" && own.isNone then tbl else updateOwn tbl w v

/-- The frequency table of `getMostFrequentWords` (script.js:379-382). -/
def buildFreq (ws : List String) : List (String × JsVal) :=
  ws.foldl freqStep []

/-- The stored value of an own key (only used on keys of the table). -/
def ownValue (tbl : List (String × JsVal)) (w : String) : JsVal :=
  match tbl.find? (fun e => e.1 == w) with
  | some e => e.2
  | none => .num 0

/-- `Object.entries(frequency)` (script.js:384): the own keys in JS property
enumeration order, each with its stored value. -/
def freqEntries (t : String) : List (String × JsVal) :=
  (jsKeyOrder ((buildFreq (getWords t)).map Prod.fst)).map
    (fun w => (w, ownValue (buildFreq (getWords t)) w))

/-- The comparator `(a, b) => b[1] - a[1]` as consumed by `SortCompare`:
"a may stay before b" iff the result is ≤ 0 — for numeric counts, `b ≤ a`.
When either count is a corrupted non-numeric string, `ToNumber` gives NaN and
`SortCompare` maps NaN to +0, i.e. "equal".  With such a value present the
comparator is inconsistent and ECMAScript leaves the sort order
implementation-defined; the model then fixes the order produced by one
conforming stable implementation. -/
def countLeB (a b : String × JsVal) : Bool :=
  match a.2, b.2 with
  | .num m, .num n => decide (n ≤ m)
  | _, _ => true

/-- The entries after `.sort((a, b) => b[1] - a[1])` (script.js:385);
JavaScript's sort is stable, modelled by insertion sort. -/
def sortedFreqEntries (t : String) : List (String × JsVal) :=
  List.insertionSort (fun a b => countLeB a b = true) (freqEntries t)

/-- `getMostFrequentWords` (script.js:375-388): `[]` when there are no tokens;
otherwise the sorted frequency entries truncated by `.slice(0, topN)`
(default 10). -/
def getMostFrequentWords (t : String) (topN : Nat := 10) : List (String × JsVal) :=
  if getWords t = [] then [] else (sortedFreqEntries t).take topN

/-- Inherited-property corruption, concretely: on `"constructor constructor"`
the first read hits `Object.prototype.constructor` — the `Object` function,
which is truthy — so `(f || 0) + 1` concatenates, and the recorded "count" is
the string `function Object() ... 11`, not the number 2. -/
theorem buildFreq_constructor_corrupts :
    buildFreq ["constructor", "constructor"] =
      [("constructor", JsVal.str (nativeFunStr "Object" ++ "11"))] := by decide

/-- The `"__proto__"` assignment invokes the inherited accessor, which ignores
a non-object value: the token never becomes an own key of the table and is
absent from `Object.entries`. -/
theorem buildFreq_proto_noop :
    buildFreq ["__proto__", "__proto__"] = [] := by decide

/-- Pure view of an entry whose count never collided with the prototype. -/
def wrapEntry (e : String × Nat) : String × JsVal := (e.1, JsVal.num e.2)

/-- Pure (numeric) counterpart of `updateOwn`. -/
def updateOwnN : List (String × Nat) → String → Nat → List (String × Nat)
  | [], w, v => [(w, v)]
  | e :: tl, w, v => if e.1 = w then (e.1, v) :: tl else e :: updateOwnN tl w v

/-- Pure counterpart of `freqStep`, correct for non-colliding keys. -/
def pureStep (tbl : List (String × Nat)) (w : String) : List (String × Nat) :=
  let v := match tbl.find? (fun e => e.1 == w) with
    | some e => e.2 + 1
    | none => 1
  updateOwnN tbl w v

theorem find?_wrap (tbl : List (String × Nat)) (w : String) :
    (tbl.map wrapEntry).find? (fun e => e.1 == w) =
      (tbl.find? (fun e => e.1 == w)).map wrapEntry := by
  rw [List.find?_map]
  rfl

theorem updateOwn_wrap (tbl : List (String × Nat)) (w : String) (n : Nat) :
    updateOwn (tbl.map wrapEntry) w (JsVal.num n) = (updateOwnN tbl w n).map wrapEntry := by
  induction tbl with
  | nil => rfl
  | cons e tl ih =>
    by_cases h : e.1 = w <;>
      simp [updateOwn, updateOwnN, wrapEntry, h, ih]

theorem freqStep_wrap (tbl : List (String × Nat)) (w : String)
    (hw : isObjectProtoName w = false) (hpos : ∀ e ∈ tbl, 1 ≤ e.2) :
    freqStep (tbl.map wrapEntry) w = (pureStep tbl w).map wrapEntry := by
  have hproto : protoLookupStr w = none := by
    unfold isObjectProtoName at hw
    cases hkind : protoLookupStr w
    · rfl
    · rw [hkind] at hw
      simp at hw
  have hwp : (w == "__proto__") = false := by
    by_cases h : w = "__proto__"
    · subst h
      exact absurd hproto (by decide)
    · simp [h]
  unfold freqStep pureStep
  rw [find?_wrap, hproto]
  cases hfind : tbl.find? (fun e => e.1 == w) with
  | none =>
    simp only [hfind, Option.map_none', jsIncr, hwp, Bool.false_and, if_neg]
    exact updateOwn_wrap tbl w 1
  | some e =>
    have he2 : e.2 ≠ 0 := by
      have := hpos e (List.mem_of_find?_eq_some hfind)
      omega
    simp only [hfind, Option.map_some', hwp, Bool.false_and, if_neg, wrapEntry,
      jsIncr, he2, ite_false]
    exact updateOwn_wrap tbl w (e.2 + 1)

theorem updateOwnN_pos (tbl : List (String × Nat)) (w : String) (v : Nat)
    (hpos : ∀ e ∈ tbl, 1 ≤ e.2) (hv : 1 ≤ v) :
    ∀ e ∈ updateOwnN tbl w v, 1 ≤ e.2 := by
  induction tbl with
  | nil =>
    intro e he
    simp [updateOwnN] at he
    simp [he, hv]
  | cons x tl ih =>
    intro e he
    by_cases h : x.1 = w
    · rw [show updateOwnN (x :: tl) w v = (x.1, v) :: tl from by simp [updateOwnN, h]] at he
      rcases List.mem_cons.mp he with rfl | he'
      · exact hv
      · exact hpos e (List.mem_cons_of_mem x he')
    · rw [show updateOwnN (x :: tl) w v = x :: updateOwnN tl w v from by
        simp [updateOwnN, h]] at he
      rcases List.mem_cons.mp he with rfl | he'
      · exact hpos e (List.mem_cons_self _ _)
      · exact ih (fun y hy => hpos y (List.mem_cons_of_mem x hy)) e he'

theorem pureStep_pos (tbl : List (String × Nat)) (w : String)
    (hpos : ∀ e ∈ tbl, 1 ≤ e.2) : ∀ e ∈ pureStep tbl w, 1 ≤ e.2 := by
  unfold pureStep
  cases hfind : tbl.find? (fun e => e.1 == w) with
  | none => exact updateOwnN_pos tbl w 1 hpos (by omega)
  | some e => exact updateOwnN_pos tbl w (e.2 + 1) hpos (by omega)

theorem foldl_freqStep_wrap :
    ∀ (ws : List String) (tbl : List (String × Nat)),
      (∀ w ∈ ws, isObjectProtoName w = false) →
      (∀ e ∈ tbl, 1 ≤ e.2) →
      ws.foldl freqStep (tbl.map wrapEntry) = (ws.foldl pureStep tbl).map wrapEntry := by
  intro ws
  induction ws with
  | nil => intro tbl _ _; rfl
  | cons w ws ih =>
    intro tbl hclean hpos
    simp only [List.foldl_cons]
    rw [freqStep_wrap tbl w (hclean w (by simp)) hpos]
    exact ih (pureStep tbl w) (fun x hx => hclean x (by simp [hx])) (pureStep_pos tbl w hpos)

theorem keys_updateOwnN (tbl : List (String × Nat)) (w : String) (v : Nat)
    (hw : w ∈ tbl.map Prod.fst) :
    (updateOwnN tbl w v).map Prod.fst = tbl.map Prod.fst := by
  induction tbl with
  | nil => simp at hw
  | cons e tl ih =>
    by_cases h : e.1 = w
    · simp [updateOwnN, h]
    · have hw' : w ∈ tl.map Prod.fst := by
        rw [List.map_cons] at hw
        rcases List.mem_cons.mp hw with h1 | h1
        · exact absurd h1.symm h
        · exact h1
      simp [updateOwnN, h, ih hw']

theorem find?_none_updateOwnN (tbl : List (String × Nat)) (w : String) (v : Nat)
    (h : tbl.find? (fun e => e.1 == w) = none) :
    updateOwnN tbl w v = tbl ++ [(w, v)] := by
  induction tbl with
  | nil => simp [updateOwnN]
  | cons e tl ih =>
    by_cases he : e.1 = w
    · rw [List.find?_cons_of_pos _ (by simpa using he)] at h
      simp at h
    · rw [List.find?_cons_of_neg _ (by simpa using he)] at h
      simp [updateOwnN, he, ih h]

theorem firstSeenAux_not_mem_seen :
    ∀ (ws seen : List String) (k : String), k ∈ firstSeenAux seen ws → k ∉ seen := by
  intro ws
  induction ws with
  | nil => intro seen k hk; simp [firstSeenAux] at hk
  | cons w ws ih =>
    intro seen k hk
    simp only [firstSeenAux] at hk
    split at hk
    · exact ih seen k hk
    · rcases List.mem_cons.mp hk with rfl | hk'
      · exact ‹¬ k ∈ seen›
      · intro hks
        exact ih (w :: seen) k hk' (List.mem_cons_of_mem w hks)

theorem firstSeenAux_congr :
    ∀ (ws s₁ s₂ : List String), (∀ x, x ∈ s₁ ↔ x ∈ s₂) →
      firstSeenAux s₁ ws = firstSeenAux s₂ ws := by
  intro ws
  induction ws with
  | nil => intro s₁ s₂ _; rfl
  | cons w ws ih =>
    intro s₁ s₂ hiff
    simp only [firstSeenAux]
    by_cases h : w ∈ s₁
    · rw [if_pos h, if_pos ((hiff w).mp h)]
      exact ih s₁ s₂ hiff
    · rw [if_neg h, if_neg (fun hc => h ((hiff w).mpr hc))]
      rw [ih (w :: s₁) (w :: s₂) (by intro x; simp [hiff x])]

theorem updateOwnN_map_add (tbl : List (String × Nat)) (w : String) (e₀ : String × Nat)
    (g : String → Nat)
    (hnd : (tbl.map Prod.fst).Nodup)
    (hfind : tbl.find? (fun e => e.1 == w) = some e₀) :
    (updateOwnN tbl w (e₀.2 + 1)).map (fun x => (x.1, x.2 + g x.1)) =
      tbl.map (fun x => (x.1, x.2 + (g x.1 + if x.1 = w then 1 else 0))) := by
  induction tbl with
  | nil => simp at hfind
  | cons e tl ih =>
    by_cases he : e.1 = w
    · have he0 : e₀ = e := by
        rw [List.find?_cons_of_pos _ (by simpa using he)] at hfind
        exact (Option.some.inj hfind).symm
      subst he0
      simp only [updateOwnN, if_pos he, List.map_cons, List.cons.injEq]
      refine ⟨?_, ?_⟩
      · simp only [Prod.mk.injEq, if_pos he, true_and]
        omega
      · apply List.map_congr_left
        intro x hx
        have hx1 : x.1 ≠ w := by
          intro hxw
          have hnotin : e₀.1 ∉ tl.map Prod.fst := (List.nodup_cons.mp (by simpa using hnd)).1
          exact hnotin (by rw [he, ← hxw]; exact List.mem_map_of_mem Prod.fst hx)
        simp [hx1]
    · rw [List.find?_cons_of_neg _ (by simpa using he)] at hfind
      simp only [updateOwnN, if_neg he, List.map_cons, List.cons.injEq]
      refine ⟨?_, ?_⟩
      · simp [he]
      · exact ih (List.nodup_cons.mp (by simpa using hnd)).2 hfind

theorem foldl_pureStep_spec :
    ∀ (ws : List String) (tbl : List (String × Nat)),
      (tbl.map Prod.fst).Nodup →
      ws.foldl pureStep tbl =
        tbl.map (fun e => (e.1, e.2 + ws.count e.1)) ++
        (firstSeenAux (tbl.map Prod.fst) ws).map (fun k => (k, ws.count k)) := by
  intro ws
  induction ws with
  | nil =>
    intro tbl hnd
    simp [firstSeenAux]
  | cons w ws ih =>
    intro tbl hnd
    rw [List.foldl_cons]
    cases hfind : tbl.find? (fun e => e.1 == w) with
    | some e₀ =>
      have he01 : e₀.1 = w := by
        have := List.find?_some hfind
        simpa using this
      have hwmem : w ∈ tbl.map Prod.fst :=
        he01 ▸ List.mem_map_of_mem Prod.fst (List.mem_of_find?_eq_some hfind)
      have hstep : pureStep tbl w = updateOwnN tbl w (e₀.2 + 1) := by
        unfold pureStep
        rw [hfind]
      rw [hstep, ih _ (by rw [keys_updateOwnN tbl w _ hwmem]; exact hnd),
        keys_updateOwnN tbl w _ hwmem]
      congr 1
      · rw [updateOwnN_map_add tbl w e₀ (fun k => ws.count k) hnd hfind]
        apply List.map_congr_left
        intro x hx
        by_cases hxw : x.1 = w <;> simp [List.count_cons, hxw]
      · simp only [firstSeenAux, if_pos hwmem]
        apply List.map_congr_left
        intro k hk
        have hknw : k ≠ w := by
          intro hkw
          exact firstSeenAux_not_mem_seen ws _ k hk (hkw ▸ hwmem)
        simp [List.count_cons, hknw]
    | none =>
      have hwnmem : w ∉ tbl.map Prod.fst := by
        intro hmem
        obtain ⟨e, he, he1⟩ := List.mem_map.mp hmem
        have := List.find?_eq_none.mp hfind e he
        simp [he1] at this
      have hstep : pureStep tbl w = tbl ++ [(w, 1)] := by
        unfold pureStep
        rw [hfind]
        exact find?_none_updateOwnN tbl w 1 hfind
      have hnd2 : ((tbl ++ [(w, 1)]).map Prod.fst).Nodup := by
        rw [List.map_append]
        simp [List.nodup_append, hnd, hwnmem]
      rw [hstep, ih _ hnd2]
      simp only [List.map_append]
      rw [firstSeenAux_congr ws (tbl.map Prod.fst ++ [(w, 1)].map Prod.fst)
        (w :: tbl.map Prod.fst) (by intro x; simp; tauto)]
      simp only [List.map_append, List.map_cons, List.map_nil, List.append_assoc,
        List.cons_append, List.nil_append]
      rw [show firstSeenAux (tbl.map Prod.fst) (w :: ws) =
          w :: firstSeenAux (w :: tbl.map Prod.fst) ws from by
        simp only [firstSeenAux, if_neg hwnmem]]
      simp only [List.map_cons]
      congr 1
      · apply List.map_congr_left
        intro x hx
        have hx1 : x.1 ≠ w := by
          intro hxw
          exact hwnmem (hxw ▸ List.mem_map_of_mem Prod.fst hx)
        simp [List.count_cons, hx1]
      · congr 1
        · simp [List.count_cons]
          omega
        · apply List.map_congr_left
          intro k hk
          have hknw : k ≠ w := by
            intro hkw
            exact firstSeenAux_not_mem_seen ws _ k hk (by simp [hkw])
          simp [List.count_cons, hknw]

theorem buildFreq_clean (ws : List String)
    (hclean : ∀ w ∈ ws, isObjectProtoName w = false) :
    buildFreq ws = (firstSeen ws).map (fun k => (k, JsVal.num (ws.count k))) := by
  unfold buildFreq firstSeen
  have h0 : (List.foldl freqStep [] ws) =
      (List.foldl pureStep [] ws).map wrapEntry := by
    have := foldl_freqStep_wrap ws [] hclean (by simp)
    simpa using this
  rw [h0, foldl_pureStep_spec ws [] (by simp)]
  simp [wrapEntry, Function.comp, firstSeenAux]

theorem ownValue_map (ks : List String) (f : String → JsVal) (w : String) (hw : w ∈ ks) :
    ownValue (ks.map (fun k => (k, f k))) w = f w := by
  induction ks with
  | nil => simp at hw
  | cons k ks ih =>
    by_cases hkw : k = w
    · subst hkw
      simp [ownValue, List.find?_cons]
    · have hw' : w ∈ ks := by
        rcases List.mem_cons.mp hw with h | h
        · exact absurd h.symm hkw
        · exact h
      have hrec := ih hw'
      unfold ownValue at hrec ⊢
      rw [List.map_cons, List.find?_cons_of_neg _ (by simpa using hkw)]
      exact hrec

theorem mem_of_mem_jsKeyOrder {x : String} {ks : List String}
    (h : x ∈ jsKeyOrder ks) : x ∈ ks := by
  unfold jsKeyOrder at h
  rcases List.mem_append.mp h with h | h
  · exact (List.mem_filter.mp ((List.perm_insertionSort _ _).subset h)).1
  · exact (List.mem_filter.mp h).1

theorem freqEntries_clean (t : String)
    (hclean : ∀ w ∈ getWords t, isObjectProtoName w = false) :
    freqEntries t = (jsKeyOrder (firstSeen (getWords t))).map
      (fun w => (w, JsVal.num ((getWords t).count w))) := by
  unfold freqEntries
  rw [buildFreq_clean (getWords t) hclean]
  have hkeys : ((firstSeen (getWords t)).map
      (fun k => (k, JsVal.num ((getWords t).count k)))).map Prod.fst =
      firstSeen (getWords t) := by
    simp [List.map_map, Function.comp_def]
  rw [hkeys]
  apply List.map_congr_left
  intro w hw
  rw [ownValue_map _ _ _ (mem_of_mem_jsKeyOrder hw)]

/-- C2: `getMostFrequentWords` returns the first `topN` entries (default 10) of
a stable descending-by-count sort of the frequency table read in JS
property-enumeration order.  Provided no token collides with an
`Object.prototype` property name (which would corrupt its count to a string
and make the comparator inconsistent), the table entries are exactly the
distinct tokens with their occurrence counts, keyed in enumeration order:
array-index words ascending first, then the rest in first-encountered order;
the result is the `topN`-prefix of their stable sort, has length ≤ `topN`, is
non-increasing under the comparator, and ties keep their enumeration order. -/
theorem getMostFrequentWords_spec (t : String) (topN : Nat)
    (hclean : ∀ w ∈ getWords t, isObjectProtoName w = false) :
    freqEntries t =
      (jsKeyOrder (firstSeen (getWords t))).map
        (fun w => (w, JsVal.num ((getWords t).count w))) ∧
    getMostFrequentWords t topN = (sortedFreqEntries t).take topN ∧
    (getMostFrequentWords t topN).length ≤ topN ∧
    (sortedFreqEntries t).Pairwise (fun a b => countLeB a b = true) ∧
    (∀ a b : String × JsVal, List.Sublist [a, b] (freqEntries t) →
      countLeB a b = true → List.Sublist [a, b] (sortedFreqEntries t)) := by
  have hfe := freqEntries_clean t hclean
  have hslice : getMostFrequentWords t topN = (sortedFreqEntries t).take topN := by
    unfold getMostFrequentWords
    by_cases hnil : getWords t = []
    · rw [if_pos hnil]
      have hfe0 : freqEntries t = [] := by rw [hfe, hnil]; rfl
      simp [sortedFreqEntries, hfe0, List.insertionSort]
    · rw [if_neg hnil]
  refine ⟨hfe, hslice, ?_, ?_, ?_⟩
  · rw [hslice]
    exact List.length_take_le _ _
  · have hcomp : freqEntries t =
        ((jsKeyOrder (firstSeen (getWords t))).map
          (fun w => (w, (getWords t).count w))).map wrapEntry := by
      rw [hfe]
      simp [List.map_map, Function.comp_def, wrapEntry]
    haveI : DecidableRel (fun a b : String × Nat => b.2 ≤ a.2) :=
      fun _ _ => Nat.decLe _ _
    haveI : IsTotal (String × Nat) (fun a b => b.2 ≤ a.2) :=
      ⟨fun a b => Nat.le_total b.2 a.2⟩
    haveI : IsTrans (String × Nat) (fun a b => b.2 ≤ a.2) :=
      ⟨fun _ _ _ hab hbc => le_trans hbc hab⟩
    have hmap :
        (List.insertionSort (fun a b : String × Nat => b.2 ≤ a.2)
            ((jsKeyOrder (firstSeen (getWords t))).map
              (fun w => (w, (getWords t).count w)))).map wrapEntry =
        List.insertionSort (fun a b => countLeB a b = true)
          (((jsKeyOrder (firstSeen (getWords t))).map
              (fun w => (w, (getWords t).count w))).map wrapEntry) :=
      List.map_insertionSort (fun a b : String × Nat => b.2 ≤ a.2)
        (fun a b => countLeB a b = true) wrapEntry _ (by
          intro a _ b _
          simp [wrapEntry, countLeB])
    have hsorted := List.sorted_insertionSort
      (fun a b : String × Nat => b.2 ≤ a.2)
      ((jsKeyOrder (firstSeen (getWords t))).map
        (fun w => (w, (getWords t).count w)))
    have hpw : ((List.insertionSort (fun a b : String × Nat => b.2 ≤ a.2)
        ((jsKeyOrder (firstSeen (getWords t))).map
          (fun w => (w, (getWords t).count w)))).map wrapEntry).Pairwise
        (fun a b => countLeB a b = true) := by
      refine List.Pairwise.map wrapEntry ?_ hsorted
      intro a b h
      simpa [wrapEntry, countLeB] using h
    rw [hmap] at hpw
    unfold sortedFreqEntries
    rw [hcomp]
    exact hpw
  · intro a b hsub hle
    exact List.pair_sublist_insertionSort hle hsub

/-- The claim's "order of first appearance" tie-break is wrong even on clean
input: `Object.entries` lists canonical array-index keys first in numeric
order.  On `"b 2"` both tokens occur once and `"b"` comes first, yet the
entry for `"2"` is listed first. -/
theorem getMostFrequentWords_numeric_keys_first :
    getWords "b 2" = ["b", "2"] ∧
    getMostFrequentWords "b 2" 10 =
      [("2", JsVal.num 1), ("b", JsVal.num 1)] := by decide

/-- Witness instantiating `getMostFrequentWords_spec` at `"a b a"`. -/
theorem getMostFrequentWords_spec_witness :
    (∀ w ∈ getWords "a b a", isObjectProtoName w = false) ∧
    freqEntries "a b a" = [("a", JsVal.num 2), ("b", JsVal.num 1)] ∧
    List.Sublist [("a", JsVal.num 2), ("b", JsVal.num 1)]
      (sortedFreqEntries "a b a") := by
  refine ⟨by decide, by decide, ?_⟩
  refine (getMostFrequentWords_spec "a b a" 10 (by decide)).2.2.2.2 _ _ ?_ (by decide)
  have he : freqEntries "a b a" = [("a", JsVal.num 2), ("b", JsVal.num 1)] := by
    decide
  rw [he]
